import Mathlib

/-!
# Verification of `kosaraju` (src/testkosaraju.py)

A shallow embedding of the Python function `kosaraju` that computes strongly
connected components of a directed graph, together with proofs of its
specification properties.

The Python data model is `Dict[int, List[int]]`; a Python dict is an
insertion-ordered mapping with pairwise-distinct keys, which we embed as an
association list `List (Int × List Int)` whose key list is `Nodup`.
Python exceptions (the `KeyError` reachable in the transpose-building loop)
are embedded with `Option`: `none` models the raised exception.
-/

/-- A Python dict `Dict[int, List[int]]`: an insertion-ordered association list.
Well-formed inputs (actual Python dicts) have pairwise-distinct keys. -/
abbrev Graph := List (Int × List Int)

/-- The keys of the dict, in insertion order (`for vertex in graph`). -/
def keys (g : Graph) : List Int := g.map Prod.fst

/-- Python `graph.get(v, [])`: the adjacency list of `v`, or `[]` when `v` is
not a key. -/
def getAdj (g : Graph) (v : Int) : List Int :=
  match g.find? (fun p => p.1 == v) with
  | some p => p.2
  | none => []

/-- All vertices mentioned anywhere in the graph (keys and edge targets). -/
def verts (g : Graph) : List Int := g.flatMap (fun p => p.1 :: p.2)

/-- There is a directed edge `u → v` in the graph. -/
def Edge (g : Graph) (u v : Int) : Prop := v ∈ getAdj g u

/-- Vertex `u` reaches vertex `v` via directed edges of `g`. -/
def Reach (g : Graph) : Int → Int → Prop := Relation.ReflTransGen (Edge g)

/-- Vertices `u` and `v` are mutually reachable in `g`. -/
def SameSCC (g : Graph) (u v : Int) : Prop := Reach g u v ∧ Reach g v u

/-- Number of not-yet-visited vertices of the graph: the termination measure
for the two depth-first traversals. -/
def unvisitedCount (g : Graph) (vis : List Int) : Nat :=
  ((verts g).filter (fun x => decide (x ∉ vis))).length

lemma filter_length_le_of_imp (l : List Int) (p q : Int → Bool)
    (h : ∀ x, q x = true → p x = true) :
    (l.filter q).length ≤ (l.filter p).length := by
  induction l with
  | nil => simp
  | cons a t ih =>
    rw [List.filter_cons, List.filter_cons]
    by_cases hq : q a = true
    · rw [if_pos hq, if_pos (h a hq)]
      simpa using ih
    · rw [if_neg hq]
      by_cases hp : p a = true
      · rw [if_pos hp]
        exact le_trans ih (by simp)
      · rw [if_neg hp]
        exact ih

lemma filter_length_lt_of_imp (l : List Int) (p q : Int → Bool)
    (h : ∀ x, q x = true → p x = true) (a : Int) (ha : a ∈ l)
    (hpa : p a = true) (hqa : q a = false) :
    (l.filter q).length < (l.filter p).length := by
  induction l with
  | nil => simp at ha
  | cons b t ih =>
    rw [List.filter_cons, List.filter_cons]
    rcases List.mem_cons.mp ha with rfl | hb
    · rw [if_pos hpa, if_neg (by simp [hqa])]
      have := filter_length_le_of_imp t p q h
      simp only [List.length_cons]
      omega
    · by_cases hq : q b = true
      · rw [if_pos hq, if_pos (h b hq)]
        simpa using ih hb
      · rw [if_neg hq]
        by_cases hp : p b = true
        · rw [if_pos hp]
          exact lt_of_lt_of_le (ih hb) (by simp)
        · rw [if_neg hp]
          exact ih hb

lemma unvisitedCount_cons_lt (g : Graph) (vis : List Int) (v : Int)
    (hv : v ∉ vis) (hvm : v ∈ verts g) :
    unvisitedCount g (v :: vis) < unvisitedCount g vis := by
  apply filter_length_lt_of_imp _ _ _ ?_ v hvm ?_ ?_
  · intro x hx
    simp only [decide_eq_true_eq, List.mem_cons] at hx ⊢
    tauto
  · simp [hv]
  · simp

lemma unvisitedCount_le_of_subset (g : Graph) (vis vis' : List Int)
    (h : ∀ x, x ∈ vis → x ∈ vis') :
    unvisitedCount g vis' ≤ unvisitedCount g vis := by
  apply filter_length_le_of_imp
  intro x hx
  simp only [decide_eq_true_eq] at hx ⊢
  exact fun hc => hx (h x hc)

lemma unvisitedCount_cons_of_not_mem_verts (g : Graph) (vis : List Int) (v : Int)
    (hvm : v ∉ verts g) :
    unvisitedCount g (v :: vis) = unvisitedCount g vis := by
  unfold unvisitedCount
  congr 1
  apply List.filter_congr
  intro x hx
  simp only [decide_eq_decide, List.mem_cons]
  constructor
  · intro h hc
    exact h (Or.inr hc)
  · intro h hc
    rcases hc with rfl | hc
    · exact hvm hx
    · exact h hc

lemma getAdj_eq_nil_of_not_key (g : Graph) (v : Int) (hv : v ∉ keys g) :
    getAdj g v = [] := by
  unfold getAdj
  cases hfind : g.find? (fun p => p.1 == v) with
  | none => rfl
  | some p =>
    exfalso
    have hmem := List.mem_of_find?_eq_some hfind
    have := List.find?_some hfind
    simp only [beq_iff_eq] at this
    exact hv (this ▸ List.mem_map_of_mem Prod.fst hmem)

lemma key_mem_verts (g : Graph) (v : Int) (hv : v ∈ keys g) : v ∈ verts g := by
  simp only [keys, List.mem_map] at hv
  obtain ⟨p, hp, rfl⟩ := hv
  simp only [verts, List.mem_flatMap]
  exact ⟨p, hp, List.mem_cons_self _ _⟩

lemma mem_verts_of_getAdj_ne_nil (g : Graph) (v : Int) (h : getAdj g v ≠ []) :
    v ∈ verts g := by
  apply key_mem_verts
  by_contra hv
  exact h (getAdj_eq_nil_of_not_key g v hv)

/-- Pass 1 of the Python code: `dfs_fill` together with its enclosing loops.
Processing worklist head `v` when `v` is unvisited mirrors the call
`dfs_fill(v)`: mark `v` visited, recurse into `graph.get(v, [])` skipping
visited neighbors, then append `v` to the stack (post-order push); then
continue with the rest of the worklist. The top-level loop
`for vertex in graph: if vertex not in visited: dfs_fill(vertex)` is the same
computation applied to the worklist `keys g`. The returned subtype records
that the visited set only grows, which feeds the termination argument. -/
def dfs_fill (g : Graph) (vs : List Int) (vis stk : List Int) :
    { p : List Int × List Int // ∀ x, x ∈ vis → x ∈ p.1 } :=
  match vs with
  | [] => ⟨(vis, stk), fun _ h => h⟩
  | v :: rest =>
    if hv : v ∈ vis then
      dfs_fill g rest vis stk
    else
      let r1 := dfs_fill g (getAdj g v) (v :: vis) stk
      let r2 := dfs_fill g rest r1.1.1 (r1.1.2 ++ [v])
      ⟨r2.1, fun x hx => r2.2 x (r1.2 x (List.mem_cons_of_mem v hx))⟩
termination_by (unvisitedCount g vis, vs.length)
decreasing_by
  · apply Prod.Lex.right
    simp
  · by_cases hvm : v ∈ verts g
    · exact Prod.Lex.left _ _ (unvisitedCount_cons_lt g vis v hv hvm)
    · have hnil : getAdj g v = [] := by
        by_contra h
        exact hvm (mem_verts_of_getAdj_ne_nil g v h)
      rw [hnil, unvisitedCount_cons_of_not_mem_verts g vis v hvm]
      apply Prod.Lex.right
      simp
  · rcases Nat.lt_or_ge (unvisitedCount g r1.1.1) (unvisitedCount g vis) with h | h
    · exact Prod.Lex.left _ _ h
    · have hle : unvisitedCount g r1.1.1 ≤ unvisitedCount g vis :=
        unvisitedCount_le_of_subset g vis r1.1.1
          (fun x hx => r1.2 x (List.mem_cons_of_mem v hx))
      rw [Nat.le_antisymm hle h]
      apply Prod.Lex.right
      simp

/-- One Python statement `transpose[neighbor].append(vertex)`: append `x` to
the list stored at key `k`, or `none` (the `KeyError`) when `k` is not a key. -/
def dictAppend (t : Graph) (k x : Int) : Option Graph :=
  match t with
  | [] => none
  | (k0, l) :: rest =>
    if k0 = k then some ((k0, l ++ [x]) :: rest)
    else (dictAppend rest k x).map (fun r => (k0, l) :: r)

/-- The inner transpose loop
`for neighbor in graph.get(vertex, []): transpose[neighbor].append(vertex)`. -/
def addRevEdges (t : Graph) (u : Int) (ns : List Int) : Option Graph :=
  match ns with
  | [] => some t
  | n :: ns =>
    match dictAppend t n u with
    | none => none
    | some t' => addRevEdges t' u ns

/-- The outer transpose loop `for vertex in graph: ...` over remaining entries. -/
def transposeAux (t : Graph) (entries : Graph) : Option Graph :=
  match entries with
  | [] => some t
  | (u, ns) :: rest =>
    match addRevEdges t u ns with
    | none => none
    | some t' => transposeAux t' rest

/-- Step 2 of the Python code: `transpose = {vertex: [] for vertex in graph}`
followed by the double loop appending reversed edges. `none` models the
`KeyError` raised when some edge target is not a key of the graph. -/
def transpose (g : Graph) : Option Graph :=
  transposeAux (g.map (fun p => (p.1, ([] : List Int)))) g

/-- Python `sorted(component)` on integers: ascending sort. -/
def pySorted (l : List Int) : List Int := l.insertionSort (· ≤ ·)

/-- Pass 2 of the Python code: `dfs_collect` together with its neighbor loop.
Processing worklist head `v` when `v` is unvisited mirrors the call
`dfs_collect(v, component)`: mark `v` visited, append it to the component,
then recurse into `transpose.get(v, [])` skipping visited neighbors. -/
def dfs_collect (t : Graph) (vs : List Int) (vis comp : List Int) :
    { p : List Int × List Int // ∀ x, x ∈ vis → x ∈ p.1 } :=
  match vs with
  | [] => ⟨(vis, comp), fun _ h => h⟩
  | v :: rest =>
    if hv : v ∈ vis then
      dfs_collect t rest vis comp
    else
      let r1 := dfs_collect t (getAdj t v) (v :: vis) (comp ++ [v])
      let r2 := dfs_collect t rest r1.1.1 r1.1.2
      ⟨r2.1, fun x hx => r2.2 x (r1.2 x (List.mem_cons_of_mem v hx))⟩
termination_by (unvisitedCount t vis, vs.length)
decreasing_by
  · apply Prod.Lex.right
    simp
  · by_cases hvm : v ∈ verts t
    · exact Prod.Lex.left _ _ (unvisitedCount_cons_lt t vis v hv hvm)
    · have hnil : getAdj t v = [] := by
        by_contra h
        exact hvm (mem_verts_of_getAdj_ne_nil t v h)
      rw [hnil, unvisitedCount_cons_of_not_mem_verts t vis v hvm]
      apply Prod.Lex.right
      simp
  · rcases Nat.lt_or_ge (unvisitedCount t r1.1.1) (unvisitedCount t vis) with h | h
    · exact Prod.Lex.left _ _ h
    · have hle : unvisitedCount t r1.1.1 ≤ unvisitedCount t vis :=
        unvisitedCount_le_of_subset t vis r1.1.1
          (fun x hx => r1.2 x (List.mem_cons_of_mem v hx))
      rw [Nat.le_antisymm hle h]
      apply Prod.Lex.right
      simp

/-- Step 3 of the Python code: the `while stack:` loop. `order` is the stack
read from the top, i.e. the reverse of the stack list (since `stack.pop()`
removes the last element). An unvisited popped vertex `v` starts
`component = []; dfs_collect(v, component)` — which marks `v`, appends it,
and explores `transpose.get(v, [])` — and the finished component is sorted
and appended to the result. -/
def popLoop (t : Graph) (order : List Int) (vis : List Int)
    (sccs : List (List Int)) : List (List Int) :=
  match order with
  | [] => sccs
  | v :: rest =>
    if v ∈ vis then
      popLoop t rest vis sccs
    else
      let r := dfs_collect t (getAdj t v) (v :: vis) [v]
      popLoop t rest r.1.1 (sccs ++ [pySorted r.1.2])

/-- The Python function `kosaraju`. `none` models an uncaught exception
(the `KeyError` from transpose construction). -/
def kosaraju (g : Graph) : Option (List (List Int)) :=
  if g = [] then some []
  else
    let fill := dfs_fill g (keys g) [] []
    match transpose g with
    | none => none
    | some t => some (popLoop t fill.1.2.reverse [] [])

/-- The worked example graph from the `__main__` block of the source. -/
def exampleGraph : Graph :=
  [(0, [1]), (1, [2]), (2, [0, 3]), (3, [1, 4]), (4, [3, 5]), (5, [2, 6]),
   (6, [5]), (7, [6, 7])]

def fillVis (g : Graph) (vs vis stk : List Int) : List Int :=
  (dfs_fill g vs vis stk).1.1

def fillStk (g : Graph) (vs vis stk : List Int) : List Int :=
  (dfs_fill g vs vis stk).1.2

lemma fillVis_nil (g : Graph) (vis stk : List Int) :
    fillVis g [] vis stk = vis := by
  simp [fillVis, dfs_fill]

lemma fillStk_nil (g : Graph) (vis stk : List Int) :
    fillStk g [] vis stk = stk := by
  simp [fillStk, dfs_fill]

lemma fillVis_cons_visited (g : Graph) (v : Int) (rest vis stk : List Int)
    (hv : v ∈ vis) :
    fillVis g (v :: rest) vis stk = fillVis g rest vis stk := by
  simp [fillVis, dfs_fill, hv]

lemma fillStk_cons_visited (g : Graph) (v : Int) (rest vis stk : List Int)
    (hv : v ∈ vis) :
    fillStk g (v :: rest) vis stk = fillStk g rest vis stk := by
  simp [fillStk, dfs_fill, hv]

lemma fillVis_cons_unvisited (g : Graph) (v : Int) (rest vis stk : List Int)
    (hv : v ∉ vis) :
    fillVis g (v :: rest) vis stk =
      fillVis g rest (fillVis g (getAdj g v) (v :: vis) stk)
        (fillStk g (getAdj g v) (v :: vis) stk ++ [v]) := by
  simp [fillVis, fillStk, dfs_fill, hv]

lemma fillStk_cons_unvisited (g : Graph) (v : Int) (rest vis stk : List Int)
    (hv : v ∉ vis) :
    fillStk g (v :: rest) vis stk =
      fillStk g rest (fillVis g (getAdj g v) (v :: vis) stk)
        (fillStk g (getAdj g v) (v :: vis) stk ++ [v]) := by
  simp [fillVis, fillStk, dfs_fill, hv]

/-- Shape facts about pass 1: the stack grows by a block `Δ` of newly visited
vertices; the visited set grows by exactly the same block; `Δ` has no
duplicates and avoids the old visited set; every worklist vertex ends up
visited; newly pushed vertices have fully visited adjacency; and every newly
pushed vertex is reachable from some worklist vertex. -/
def FillShape (g : Graph) (vs vis stk : List Int) : Prop :=
  ∃ Δ : List Int,
    fillStk g vs vis stk = stk ++ Δ ∧
    (∀ x, x ∈ fillVis g vs vis stk ↔ (x ∈ vis ∨ x ∈ Δ)) ∧
    Δ.Nodup ∧
    (∀ x ∈ Δ, x ∉ vis) ∧
    (∀ x ∈ vs, x ∈ fillVis g vs vis stk) ∧
    (∀ x ∈ Δ, ∀ w ∈ getAdj g x, w ∈ fillVis g vs vis stk) ∧
    (∀ x ∈ Δ, ∃ v ∈ vs, Reach g v x)

lemma dfs_fill_shape (g : Graph) (vs vis stk : List Int) :
    FillShape g vs vis stk := by
  induction vs, vis, stk using dfs_fill.induct g with
  | case1 vis stk =>
    exact ⟨[], by simp [fillVis_nil, fillStk_nil]⟩
  | case2 vis stk v rest hv ih =>
    obtain ⟨D, h1, h2, h3, h4, h5, h6, h7⟩ := ih
    rw [FillShape]
    rw [fillVis_cons_visited g v rest vis stk hv, fillStk_cons_visited g v rest vis stk hv]
    refine ⟨D, h1, h2, h3, h4, ?_, h6, ?_⟩
    · intro x hx
      rcases List.mem_cons.mp hx with rfl | hx
      · exact (h2 x).mpr (Or.inl hv)
      · exact h5 x hx
    · intro x hx
      obtain ⟨w, hw, hr⟩ := h7 x hx
      exact ⟨w, List.mem_cons_of_mem v hw, hr⟩
  | case3 vis stk v rest hv r1 ih1 ih2 ih2x =>
    clear ih2x
    obtain ⟨D1, k1, k2, k3, k4, k5, k6, k7⟩ := ih1
    have ihR : FillShape g rest (fillVis g (getAdj g v) (v :: vis) stk)
        (fillStk g (getAdj g v) (v :: vis) stk ++ [v]) := ih2
    obtain ⟨D2, m1, m2, m3, m4, m5, m6, m7⟩ := ihR
    rw [FillShape]
    rw [fillVis_cons_unvisited g v rest vis stk hv, fillStk_cons_unvisited g v rest vis stk hv]
    refine ⟨D1 ++ v :: D2, ?_, ?_, ?_, ?_, ?_, ?_, ?_⟩
    · rw [m1, k1]
      simp
    · intro x
      rw [m2 x, k2 x]
      simp only [List.mem_cons, List.mem_append]
      tauto
    · rw [List.nodup_append]
      refine ⟨k3, List.nodup_cons.mpr ⟨?_, m3⟩, ?_⟩
      · intro hvD2
        exact (m4 v hvD2) ((k2 v).mpr (Or.inl (List.mem_cons_self v vis)))
      · intro x hx1 hx2
        rcases List.mem_cons.mp hx2 with rfl | hx2
        · exact (k4 x hx1) (List.mem_cons_self x vis)
        · exact (m4 x hx2) ((k2 x).mpr (Or.inr hx1))
    · intro x hx
      rcases List.mem_append.mp hx with hx | hx
      · intro hc
        exact (k4 x hx) (List.mem_cons_of_mem v hc)
      · rcases List.mem_cons.mp hx with rfl | hx
        · exact hv
        · intro hc
          exact (m4 x hx) ((k2 x).mpr (Or.inl (List.mem_cons_of_mem v hc)))
    · intro x hx
      rcases List.mem_cons.mp hx with rfl | hx
      · exact (m2 x).mpr (Or.inl ((k2 x).mpr (Or.inl (List.mem_cons_self x vis))))
      · exact m5 x hx
    · intro x hx w hw
      rcases List.mem_append.mp hx with hx | hx
      · exact (m2 w).mpr (Or.inl (k6 x hx w hw))
      · rcases List.mem_cons.mp hx with rfl | hx
        · exact (m2 w).mpr (Or.inl (k5 w hw))
        · exact m6 x hx w hw
    · intro x hx
      rcases List.mem_append.mp hx with hx | hx
      · obtain ⟨w, hw, hr⟩ := k7 x hx
        exact ⟨v, List.mem_cons_self v rest,
          Relation.ReflTransGen.head hw hr⟩
      · rcases List.mem_cons.mp hx with rfl | hx
        · exact ⟨x, List.mem_cons_self x rest, Relation.ReflTransGen.refl⟩
        · obtain ⟨w, hw, hr⟩ := m7 x hx
          exact ⟨w, List.mem_cons_of_mem v hw, hr⟩

/-- Gray vertices (visited but not yet pushed) reach every worklist vertex. -/
def GrayReach (g : Graph) (vis stk vs : List Int) : Prop :=
  ∀ z, z ∈ vis → z ∉ stk → ∀ w, w ∈ vs → Reach g z w

/-- The finish-order invariant: whatever a pushed vertex `x` reaches was
either pushed no later than `x`, or admits an escape vertex `z` that is
mutually reachable with `x` and is pushed later than `x` or still gray. -/
def OrdInv (g : Graph) (vis stk : List Int) : Prop :=
  ∀ A x B, stk = A ++ x :: B → ∀ y, Reach g x y →
    y ∈ A ∨ y = x ∨
      ∃ z, (z ∈ B ∨ (z ∈ vis ∧ z ∉ stk)) ∧
        Reach g x z ∧ Reach g z x ∧ Reach g z y

/-- Invariants of pass 1 that are threaded through the recursion: the stack is
contained in the visited set, pushed vertices have fully visited adjacency,
and the finish-order invariant holds. -/
def FillInv (g : Graph) (vis stk : List Int) : Prop :=
  (∀ x ∈ stk, x ∈ vis) ∧
  (∀ z ∈ stk, ∀ w ∈ getAdj g z, w ∈ vis) ∧
  OrdInv g vis stk

lemma ordInv_mono_vis (g : Graph) (vis vis' stk : List Int)
    (hsub : ∀ x ∈ vis, x ∈ vis') (h : OrdInv g vis stk) : OrdInv g vis' stk := by
  intro A x B hsplit y hy
  rcases h A x B hsplit y hy with h1 | h2 | ⟨z, hz, r1, r2, r3⟩
  · exact Or.inl h1
  · exact Or.inr (Or.inl h2)
  · refine Or.inr (Or.inr ⟨z, ?_, r1, r2, r3⟩)
    rcases hz with hz | ⟨hz1, hz2⟩
    · exact Or.inl hz
    · exact Or.inr ⟨hsub z hz1, hz2⟩

lemma split_concat (l : List Int) (v : Int) (A : List Int) (x : Int) (B : List Int)
    (h : l ++ [v] = A ++ x :: B) :
    (A = l ∧ x = v ∧ B = []) ∨ (∃ B0, B = B0 ++ [v] ∧ l = A ++ x :: B0) := by
  induction A generalizing l with
  | nil =>
    simp only [List.nil_append] at h ⊢
    cases l with
    | nil =>
      simp only [List.nil_append, List.cons.injEq] at h
      exact Or.inl ⟨rfl, h.1.symm, h.2.symm⟩
    | cons b l' =>
      simp only [List.cons_append, List.cons.injEq] at h
      exact Or.inr ⟨l', h.2.symm, by rw [h.1]⟩
  | cons a A' ih =>
    cases l with
    | nil =>
      exfalso
      simp only [List.nil_append, List.cons_append, List.cons.injEq] at h
      have := congrArg List.length h.2
      simp at this
      omega
    | cons b l' =>
      simp only [List.cons_append, List.cons.injEq] at h
      obtain ⟨rfl, h2⟩ := h
      rcases ih l' h2 with ⟨hA, hx, hB⟩ | ⟨B0, hB, hl⟩
      · exact Or.inl ⟨by rw [hA], hx, hB⟩
      · exact Or.inr ⟨B0, hB, by simp [hl]⟩

/-- Walk along a path out of `v` just after the recursive exploration of `v`
finished: every reachable vertex is already pushed, is `v` itself, or is
first escaped to at a gray vertex. -/
lemma reach_walk (g : Graph) (vis1 stk1 : List Int) (v : Int)
    (hadj : ∀ w ∈ getAdj g v, w ∈ vis1)
    (hclo : ∀ z ∈ stk1, ∀ w ∈ getAdj g z, w ∈ vis1) :
    ∀ c y, Reach g c y → Reach g v c → (c ∈ stk1 ∨ c = v) →
      y ∈ stk1 ∨ y = v ∨
        ∃ z, (z ∈ vis1 ∧ z ∉ stk1 ∧ z ≠ v) ∧ Reach g v z ∧ Reach g z y := by
  intro c y hcy
  induction hcy using Relation.ReflTransGen.head_induction_on with
  | refl =>
    intro _ hc
    rcases hc with hc | rfl
    · exact Or.inl hc
    · exact Or.inr (Or.inl rfl)
  | @head a c0 hstep hrest ih =>
    intro hva hc
    have hc0vis : c0 ∈ vis1 := by
      rcases hc with hc | rfl
      · exact hclo a hc c0 hstep
      · exact hadj c0 hstep
    by_cases h1 : c0 ∈ stk1
    · exact ih (hva.tail hstep) (Or.inl h1)
    · by_cases h2 : c0 = v
      · exact ih (hva.tail hstep) (Or.inr h2)
      · exact Or.inr (Or.inr ⟨c0, ⟨hc0vis, h1, h2⟩, hva.tail hstep, hrest⟩)

lemma dfs_fill_ord (g : Graph) (vs vis stk : List Int) :
    FillInv g vis stk → GrayReach g vis stk vs →
    FillInv g (fillVis g vs vis stk) (fillStk g vs vis stk) := by
  induction vs, vis, stk using dfs_fill.induct g with
  | case1 vis stk =>
    intro hinv _
    simpa [fillVis_nil, fillStk_nil] using hinv
  | case2 vis stk v rest hv ih =>
    intro hinv hgray
    rw [fillVis_cons_visited g v rest vis stk hv, fillStk_cons_visited g v rest vis stk hv]
    exact ih hinv (fun z hz1 hz2 w hw => hgray z hz1 hz2 w (List.mem_cons_of_mem v hw))
  | case3 vis stk v rest hv r1 ih1 ih2 ih2x =>
    clear ih2x
    intro hinv hgray
    obtain ⟨hsub, hclo, hord⟩ := hinv
    rw [fillVis_cons_unvisited g v rest vis stk hv, fillStk_cons_unvisited g v rest vis stk hv]
    obtain ⟨D1, k1, k2, k3, k4, k5, k6, k7⟩ := dfs_fill_shape g (getAdj g v) (v :: vis) stk
    -- invariants hold at the state after the inner call
    have hinvA : FillInv g (v :: vis) stk := by
      refine ⟨fun x hx => List.mem_cons_of_mem v (hsub x hx),
        fun z hz w hw => List.mem_cons_of_mem v (hclo z hz w hw),
        ordInv_mono_vis g vis (v :: vis) stk (fun x hx => List.mem_cons_of_mem v hx) hord⟩
    have hgrayA : GrayReach g (v :: vis) stk (getAdj g v) := by
      intro z hz1 hz2 w hw
      rcases List.mem_cons.mp hz1 with rfl | hz1
      · exact Relation.ReflTransGen.single hw
      · exact (hgray z hz1 hz2 v (List.mem_cons_self v rest)).tail hw
    have inv1 : FillInv g (fillVis g (getAdj g v) (v :: vis) stk)
        (fillStk g (getAdj g v) (v :: vis) stk) := ih1 hinvA hgrayA
    obtain ⟨sub1, clo1, ord1⟩ := inv1
    -- notation for the intermediate state
    have hvmem1 : v ∈ fillVis g (getAdj g v) (v :: vis) stk :=
      (k2 v).mpr (Or.inl (List.mem_cons_self v vis))
    have hvstk1 : v ∉ fillStk g (getAdj g v) (v :: vis) stk := by
      rw [k1]
      intro hc
      rcases List.mem_append.mp hc with hc | hc
      · exact hv (hsub v hc)
      · exact (k4 v hc) (List.mem_cons_self v vis)
    -- gray vertices of the intermediate state are old grays
    have hgray1 : ∀ z, z ∈ fillVis g (getAdj g v) (v :: vis) stk →
        z ∉ fillStk g (getAdj g v) (v :: vis) stk → z ≠ v →
        (z ∈ vis ∧ z ∉ stk) := by
      intro z hz1 hz2 hz3
      rcases (k2 z).mp hz1 with hz | hz
      · rcases List.mem_cons.mp hz with rfl | hz
        · exact absurd rfl hz3
        · refine ⟨hz, fun hc => hz2 ?_⟩
          rw [k1]
          exact List.mem_append.mpr (Or.inl hc)
      · exfalso
        apply hz2
        rw [k1]
        exact List.mem_append.mpr (Or.inr hz)
    -- invariants hold after pushing v
    have hinvB : FillInv g (fillVis g (getAdj g v) (v :: vis) stk)
        (fillStk g (getAdj g v) (v :: vis) stk ++ [v]) := by
      refine ⟨?_, ?_, ?_⟩
      · intro x hx
        rcases List.mem_append.mp hx with hx | hx
        · exact sub1 x hx
        · rw [List.mem_singleton.mp hx]
          exact hvmem1
      · intro z hz w hw
        rcases List.mem_append.mp hz with hz | hz
        · exact clo1 z hz w hw
        · rw [List.mem_singleton.mp hz] at hw
          exact k5 w hw
      · intro A x B hsplit y hy
        rcases split_concat _ v A x B hsplit with ⟨hA, hx, hB⟩ | ⟨B0, rfl, hsp⟩
        · subst hA
          subst hB
          subst x
          rcases reach_walk g (fillVis g (getAdj g v) (v :: vis) stk)
              (fillStk g (getAdj g v) (v :: vis) stk) v k5 clo1 v y hy
              Relation.ReflTransGen.refl (Or.inr rfl) with h | h | ⟨z, ⟨hz1, hz2, hz3⟩, rw1, rw2⟩
          · exact Or.inl h
          · exact Or.inr (Or.inl h)
          · obtain ⟨hzvis, hzstk⟩ := hgray1 z hz1 hz2 hz3
            refine Or.inr (Or.inr ⟨z, Or.inr ⟨hz1, ?_⟩, rw1,
              hgray z hzvis hzstk v (List.mem_cons_self v rest), rw2⟩)
            intro hc
            rcases List.mem_append.mp hc with hc | hc
            · exact hz2 hc
            · exact hz3 (List.mem_singleton.mp hc)
        · -- an old split
          rcases ord1 A x B0 hsp y hy with h | h | ⟨z, hz, rw1, rw2, rw3⟩
          · exact Or.inl h
          · exact Or.inr (Or.inl h)
          · rcases hz with hz | ⟨hz1, hz2⟩
            · exact Or.inr (Or.inr ⟨z, Or.inl (List.mem_append.mpr (Or.inl hz)), rw1, rw2, rw3⟩)
            · by_cases hzv : z = v
              · subst z
                exact Or.inr (Or.inr ⟨v,
                  Or.inl (List.mem_append.mpr (Or.inr (List.mem_singleton.mpr rfl))),
                  rw1, rw2, rw3⟩)
              · refine Or.inr (Or.inr ⟨z, Or.inr ⟨hz1, ?_⟩, rw1, rw2, rw3⟩)
                intro hc
                rcases List.mem_append.mp hc with hc | hc
                · exact hz2 hc
                · exact hzv (List.mem_singleton.mp hc)
    -- gray precondition for the tail call
    have hgrayB : GrayReach g (fillVis g (getAdj g v) (v :: vis) stk)
        (fillStk g (getAdj g v) (v :: vis) stk ++ [v]) rest := by
      intro z hz1 hz2 w hw
      have hz2' : z ∉ fillStk g (getAdj g v) (v :: vis) stk :=
        fun hc => hz2 (List.mem_append.mpr (Or.inl hc))
      have hzv : z ≠ v :=
        fun hc => hz2 (List.mem_append.mpr (Or.inr (List.mem_singleton.mpr hc)))
      obtain ⟨hzvis, hzstk⟩ := hgray1 z hz1 hz2' hzv
      exact hgray z hzvis hzstk w (List.mem_cons_of_mem v hw)
    exact ih2 hinvB hgrayB

/-- The stack produced by pass 1 of `kosaraju`. -/
def kstack (g : Graph) : List Int := fillStk g (keys g) [] []

/-- The finish-order property of the final stack: whatever a stack vertex `x`
reaches is below `x` on the stack, is `x`, or admits an escape vertex in the
same strongly connected component strictly above `x` on the stack. -/
def OrdFinal (g : Graph) (s : List Int) : Prop :=
  ∀ A x B, s = A ++ x :: B → ∀ y, Reach g x y →
    y ∈ A ∨ y = x ∨ ∃ z, z ∈ B ∧ Reach g x z ∧ Reach g z x ∧ Reach g z y

lemma kstack_facts (g : Graph) :
    (kstack g).Nodup ∧
    (∀ x ∈ keys g, x ∈ kstack g) ∧
    (∀ x ∈ kstack g, ∃ v ∈ keys g, Reach g v x) ∧
    (∀ z ∈ kstack g, ∀ w ∈ getAdj g z, w ∈ kstack g) ∧
    OrdFinal g (kstack g) := by
  obtain ⟨D, h1, h2, h3, h4, h5, h6, h7⟩ := dfs_fill_shape g (keys g) [] []
  have hD : kstack g = D := by
    rw [kstack, h1]
    simp
  have hviseq : ∀ x, x ∈ fillVis g (keys g) [] [] ↔ x ∈ kstack g := by
    intro x
    rw [h2 x, hD]
    simp
  have hinv : FillInv g (fillVis g (keys g) [] []) (fillStk g (keys g) [] []) := by
    apply dfs_fill_ord
    · refine ⟨by simp, by simp, ?_⟩
      intro A x B hs y hy
      simp at hs
    · intro z hz
      simp at hz
  obtain ⟨hsub, hclo, hord⟩ := hinv
  refine ⟨by rw [hD]; exact h3, ?_, ?_, ?_, ?_⟩
  · intro x hx
    exact (hviseq x).mp (h5 x hx)
  · intro x hx
    exact h7 x (by rw [← hD]; exact hx)
  · intro z hz w hw
    exact (hviseq w).mp (hclo z hz w hw)
  · intro A x B hsplit y hy
    rcases hord A x B hsplit y hy with h | h | ⟨z, hz, r1, r2, r3⟩
    · exact Or.inl h
    · exact Or.inr (Or.inl h)
    · rcases hz with hz | ⟨hz1, hz2⟩
      · exact Or.inr (Or.inr ⟨z, hz, r1, r2, r3⟩)
      · exact absurd ((hviseq z).mp hz1) hz2

lemma edge_source_key (g : Graph) (a b : Int) (h : Edge g a b) : a ∈ keys g := by
  by_contra hc
  rw [Edge, getAdj_eq_nil_of_not_key g a hc] at h
  simp at h

lemma reach_mem_keys (g : Graph) (htk : ∀ u w, Edge g u w → w ∈ keys g)
    (a b : Int) (h : Reach g a b) (ha : a ∈ keys g) : b ∈ keys g := by
  induction h with
  | refl => exact ha
  | tail _ hstep ih => exact htk _ _ hstep

lemma reach_source_key (g : Graph) (a b : Int) (h : Reach g a b) (hne : a ≠ b) :
    a ∈ keys g := by
  rcases Relation.ReflTransGen.cases_head h with rfl | ⟨c, hc, _⟩
  · exact absurd rfl hne
  · exact edge_source_key g a c hc

lemma nodup_middle_not_mem (s : List Int) (hnd : s.Nodup) (A : List Int) (x : Int)
    (B : List Int) (h : s = A ++ x :: B) : x ∉ A ∧ x ∉ B := by
  subst h
  rw [List.nodup_append] at hnd
  obtain ⟨_, hnd2, hdisj⟩ := hnd
  constructor
  · intro hc
    exact hdisj hc (List.mem_cons_self x B)
  · intro hc
    exact (List.nodup_cons.mp hnd2).1 hc

/-- The descent argument of the second pass: when `u` is popped with everything
above it already visited and the visited set closed under strongly connected
components, any unvisited vertex `x` below `u` on the stack that reaches `u`
is reached back by `u`. -/
lemma popclaim (g : Graph) (s : List Int) (hord : OrdFinal g s) (hnd : s.Nodup)
    (vis : List Int) (hclosed : ∀ a b, a ∈ vis → SameSCC g a b → b ∈ vis)
    (u : Int) (B : List Int) (hB : ∀ b ∈ B, b ∈ vis) (hu : u ∉ vis) :
    ∀ n A1 x A2, s = A1 ++ x :: (A2 ++ u :: B) → A2.length ≤ n → x ∉ vis →
      Reach g x u → Reach g u x := by
  intro n
  induction n with
  | zero =>
    intro A1 x A2 hsplit hlen hx hxu
    have hA2 : A2 = [] := List.eq_nil_of_length_eq_zero (Nat.le_zero.mp hlen)
    subst hA2
    rcases hord A1 x ([] ++ u :: B) hsplit u hxu with h | h | ⟨z, hz, r1, r2, r3⟩
    · exfalso
      have := nodup_middle_not_mem s hnd (A1 ++ x :: []) u B (by rw [hsplit]; simp)
      exact this.1 (List.mem_append.mpr (Or.inl h))
    · exact h ▸ Relation.ReflTransGen.refl
    · simp only [List.nil_append, List.mem_cons] at hz
      rcases hz with rfl | hz
      · exact r2
      · exact absurd (hclosed z x (hB z hz) ⟨r2, r1⟩) hx
  | succ n ih =>
    intro A1 x A2 hsplit hlen hx hxu
    rcases hord A1 x (A2 ++ u :: B) hsplit u hxu with h | h | ⟨z, hz, r1, r2, r3⟩
    · exfalso
      have := nodup_middle_not_mem s hnd (A1 ++ x :: A2) u B (by rw [hsplit]; simp)
      exact this.1 (List.mem_append.mpr (Or.inl h))
    · exact h ▸ Relation.ReflTransGen.refl
    · rcases List.mem_append.mp hz with hzA | hzB
      · -- escape vertex strictly between x and u: recurse
        obtain ⟨A21, A22, rfl⟩ := List.append_of_mem hzA
        have hz_not_vis : z ∉ vis := by
          intro hc
          exact hx (hclosed z x hc ⟨r2, r1⟩)
        have hsplit2 : s = (A1 ++ x :: A21) ++ z :: (A22 ++ u :: B) := by
          rw [hsplit]
          simp
        have hlen2 : A22.length ≤ n := by
          have := congrArg List.length hsplit
          simp at hlen
          omega
        exact (ih (A1 ++ x :: A21) z A22 hsplit2 hlen2 hz_not_vis r3).trans r2
      · rcases List.mem_cons.mp hzB with rfl | hzB
        · exact r2
        · exact absurd (hclosed z x (hB z hzB) ⟨r2, r1⟩) hx

def collVis (t : Graph) (vs vis comp : List Int) : List Int :=
  (dfs_collect t vs vis comp).1.1

def collComp (t : Graph) (vs vis comp : List Int) : List Int :=
  (dfs_collect t vs vis comp).1.2

lemma collVis_nil (t : Graph) (vis comp : List Int) :
    collVis t [] vis comp = vis := by
  simp [collVis, dfs_collect]

lemma collComp_nil (t : Graph) (vis comp : List Int) :
    collComp t [] vis comp = comp := by
  simp [collComp, dfs_collect]

lemma collVis_cons_visited (t : Graph) (v : Int) (rest vis comp : List Int)
    (hv : v ∈ vis) :
    collVis t (v :: rest) vis comp = collVis t rest vis comp := by
  simp [collVis, dfs_collect, hv]

lemma collComp_cons_visited (t : Graph) (v : Int) (rest vis comp : List Int)
    (hv : v ∈ vis) :
    collComp t (v :: rest) vis comp = collComp t rest vis comp := by
  simp [collComp, dfs_collect, hv]

lemma collVis_cons_unvisited (t : Graph) (v : Int) (rest vis comp : List Int)
    (hv : v ∉ vis) :
    collVis t (v :: rest) vis comp =
      collVis t rest (collVis t (getAdj t v) (v :: vis) (comp ++ [v]))
        (collComp t (getAdj t v) (v :: vis) (comp ++ [v])) := by
  simp [collVis, collComp, dfs_collect, hv]

lemma collComp_cons_unvisited (t : Graph) (v : Int) (rest vis comp : List Int)
    (hv : v ∉ vis) :
    collComp t (v :: rest) vis comp =
      collComp t rest (collVis t (getAdj t v) (v :: vis) (comp ++ [v]))
        (collComp t (getAdj t v) (v :: vis) (comp ++ [v])) := by
  simp [collVis, collComp, dfs_collect, hv]

/-- Shape facts about a `dfs_collect` run: the component grows by exactly the
block of newly visited vertices, which has no duplicates, avoids the previous
visited set, is reachable in the traversed graph from the worklist, and has
fully visited adjacency; and every worklist vertex ends up visited. -/
def CollectShape (t : Graph) (vs vis comp : List Int) : Prop :=
  ∃ Γ : List Int,
    collComp t vs vis comp = comp ++ Γ ∧
    (∀ x, x ∈ collVis t vs vis comp ↔ (x ∈ vis ∨ x ∈ Γ)) ∧
    Γ.Nodup ∧
    (∀ x ∈ Γ, x ∉ vis) ∧
    (∀ x ∈ vs, x ∈ collVis t vs vis comp) ∧
    (∀ x ∈ Γ, ∀ w ∈ getAdj t x, w ∈ collVis t vs vis comp) ∧
    (∀ x ∈ Γ, ∃ v ∈ vs, Reach t v x)

lemma dfs_collect_shape (t : Graph) (vs vis comp : List Int) :
    CollectShape t vs vis comp := by
  induction vs, vis, comp using dfs_collect.induct t with
  | case1 vis comp =>
    exact ⟨[], by simp [collVis_nil, collComp_nil]⟩
  | case2 vis comp v rest hv ih =>
    obtain ⟨G, h1, h2, h3, h4, h5, h6, h7⟩ := ih
    rw [CollectShape]
    rw [collVis_cons_visited t v rest vis comp hv,
      collComp_cons_visited t v rest vis comp hv]
    refine ⟨G, h1, h2, h3, h4, ?_, h6, ?_⟩
    · intro x hx
      rcases List.mem_cons.mp hx with rfl | hx
      · exact (h2 x).mpr (Or.inl hv)
      · exact h5 x hx
    · intro x hx
      obtain ⟨w, hw, hr⟩ := h7 x hx
      exact ⟨w, List.mem_cons_of_mem v hw, hr⟩
  | case3 vis comp v rest hv r1 ih1 ih2 ih2x =>
    clear ih2x
    obtain ⟨G1, k1, k2, k3, k4, k5, k6, k7⟩ := ih1
    have ihR : CollectShape t rest (collVis t (getAdj t v) (v :: vis) (comp ++ [v]))
        (collComp t (getAdj t v) (v :: vis) (comp ++ [v])) := ih2
    obtain ⟨G2, m1, m2, m3, m4, m5, m6, m7⟩ := ihR
    rw [CollectShape]
    rw [collVis_cons_unvisited t v rest vis comp hv,
      collComp_cons_unvisited t v rest vis comp hv]
    refine ⟨v :: (G1 ++ G2), ?_, ?_, ?_, ?_, ?_, ?_, ?_⟩
    · rw [m1, k1]
      simp
    · intro x
      rw [m2 x, k2 x]
      simp only [List.mem_cons, List.mem_append]
      tauto
    · rw [List.nodup_cons, List.nodup_append]
      refine ⟨?_, k3, m3, ?_⟩
      · intro hc
        rcases List.mem_append.mp hc with hc | hc
        · exact (k4 v hc) (List.mem_cons_self v vis)
        · exact (m4 v hc) ((k2 v).mpr (Or.inl (List.mem_cons_self v vis)))
      · intro x hx1 hx2
        exact (m4 x hx2) ((k2 x).mpr (Or.inr hx1))
    · intro x hx
      rcases List.mem_cons.mp hx with rfl | hx
      · exact hv
      · rcases List.mem_append.mp hx with hx | hx
        · intro hc
          exact (k4 x hx) (List.mem_cons_of_mem v hc)
        · intro hc
          exact (m4 x hx) ((k2 x).mpr (Or.inl (List.mem_cons_of_mem v hc)))
    · intro x hx
      rcases List.mem_cons.mp hx with rfl | hx
      · exact (m2 x).mpr (Or.inl ((k2 x).mpr (Or.inl (List.mem_cons_self x vis))))
      · exact m5 x hx
    · intro x hx w hw
      rcases List.mem_cons.mp hx with rfl | hx
      · exact (m2 w).mpr (Or.inl (k5 w hw))
      · rcases List.mem_append.mp hx with hx | hx
        · exact (m2 w).mpr (Or.inl (k6 x hx w hw))
        · exact m6 x hx w hw
    · intro x hx
      rcases List.mem_cons.mp hx with rfl | hx
      · exact ⟨x, List.mem_cons_self x rest, Relation.ReflTransGen.refl⟩
      · rcases List.mem_append.mp hx with hx | hx
        · obtain ⟨w, hw, hr⟩ := k7 x hx
          exact ⟨v, List.mem_cons_self v rest, Relation.ReflTransGen.head hw hr⟩
        · obtain ⟨w, hw, hr⟩ := m7 x hx
          exact ⟨w, List.mem_cons_of_mem v hw, hr⟩

/-- Reachability in `t` along a path all of whose vertices avoid `vis`
(the start is constrained separately). -/
def ReachAvoid (t : Graph) (vis : List Int) : Int → Int → Prop :=
  Relation.ReflTransGen (fun a b => Edge t a b ∧ b ∉ vis)

/-- Completeness of one `dfs_collect(v, [])` call: everything reachable from
`v` in the traversed graph while avoiding the old visited set is visited
after the call. -/
lemma collect_complete (t : Graph) (vis : List Int) (v : Int) (hv : v ∉ vis)
    (x : Int) (hreach : ReachAvoid t vis v x) :
    x ∈ collVis t (getAdj t v) (v :: vis) [v] := by
  obtain ⟨G, h1, h2, h3, h4, h5, h6, h7⟩ :=
    dfs_collect_shape t (getAdj t v) (v :: vis) [v]
  have hstep : ∀ b, b ∈ collVis t (getAdj t v) (v :: vis) [v] → b ∉ vis →
      ∀ c ∈ getAdj t b, c ∈ collVis t (getAdj t v) (v :: vis) [v] := by
    intro b hb hbvis c hc
    rcases (h2 b).mp hb with hb' | hb'
    · rcases List.mem_cons.mp hb' with rfl | hb''
      · exact h5 c hc
      · exact absurd hb'' hbvis
    · exact h6 b hb' c hc
  have hvmem : v ∈ collVis t (getAdj t v) (v :: vis) [v] :=
    (h2 v).mpr (Or.inl (List.mem_cons_self v vis))
  -- walk the avoiding path
  have : ∀ y, ReachAvoid t vis v y →
      y ∈ collVis t (getAdj t v) (v :: vis) [v] ∧ y ∉ vis := by
    intro y hy
    induction hy with
    | refl => exact ⟨hvmem, hv⟩
    | tail _ hstep2 ih =>
      obtain ⟨hb, hbvis⟩ := ih
      exact ⟨hstep _ hb hbvis _ hstep2.1, hstep2.2⟩
  exact (this x hreach).1

lemma getAdj_cons (k0 : Int) (l : List Int) (rest : Graph) (a : Int) :
    getAdj ((k0, l) :: rest) a = if k0 = a then l else getAdj rest a := by
  unfold getAdj
  by_cases h : k0 = a
  · simp [List.find?_cons, h]
  · simp [List.find?_cons, h]

lemma keys_cons (k0 : Int) (l : List Int) (rest : Graph) :
    keys ((k0, l) :: rest) = k0 :: keys rest := rfl

lemma dictAppend_none_iff (k x : Int) : ∀ t : Graph,
    dictAppend t k x = none ↔ k ∉ keys t := by
  intro t
  induction t with
  | nil => simp [dictAppend, keys]
  | cons p rest ih =>
    obtain ⟨k0, l⟩ := p
    rw [dictAppend]
    by_cases h : k0 = k
    · simp [h, keys_cons]
    · simp only [if_neg h, keys_cons, List.mem_cons]
      rw [Option.map_eq_none']
      rw [ih]
      constructor
      · intro hk hc
        rcases hc with hc | hc
        · exact h hc.symm
        · exact hk hc
      · intro hk hc
        exact hk (Or.inr hc)

lemma dictAppend_some (k x : Int) : ∀ (t t' : Graph),
    dictAppend t k x = some t' →
    keys t' = keys t ∧
    getAdj t' k = getAdj t k ++ [x] ∧
    (∀ a, a ≠ k → getAdj t' a = getAdj t a) := by
  intro t
  induction t with
  | nil => simp [dictAppend]
  | cons p rest ih =>
    obtain ⟨k0, l⟩ := p
    intro t' h
    rw [dictAppend] at h
    by_cases hk : k0 = k
    · rw [if_pos hk] at h
      obtain rfl := Option.some.inj h
      subst hk
      refine ⟨rfl, ?_, ?_⟩
      · rw [getAdj_cons, getAdj_cons, if_pos rfl, if_pos rfl]
      · intro a ha
        rw [getAdj_cons, getAdj_cons, if_neg (fun hc => ha hc.symm),
          if_neg (fun hc => ha hc.symm)]
    · rw [if_neg hk] at h
      rw [Option.map_eq_some'] at h
      obtain ⟨r', hr', rfl⟩ := h
      obtain ⟨ih1, ih2, ih3⟩ := ih r' hr'
      refine ⟨?_, ?_, ?_⟩
      · rw [keys_cons, keys_cons, ih1]
      · rw [getAdj_cons, getAdj_cons, if_neg hk, if_neg hk]
        exact ih2
      · intro a ha
        rw [getAdj_cons, getAdj_cons]
        by_cases hh : k0 = a
        · rw [if_pos hh, if_pos hh]
        · rw [if_neg hh, if_neg hh]
          exact ih3 a ha

lemma addRevEdges_none_iff (u : Int) : ∀ (ns : List Int) (t : Graph),
    addRevEdges t u ns = none ↔ ∃ n ∈ ns, n ∉ keys t := by
  intro ns
  induction ns with
  | nil => simp [addRevEdges]
  | cons n ns ih =>
    intro t
    rw [addRevEdges]
    cases hd : dictAppend t n u with
    | none =>
      simp only [true_iff]
      exact ⟨n, List.mem_cons_self n ns, (dictAppend_none_iff n u t).mp hd⟩
    | some t1 =>
      obtain ⟨hk1, _, _⟩ := dictAppend_some n u t t1 hd
      rw [ih t1]
      have hnk : n ∈ keys t := by
        by_contra hc
        rw [(dictAppend_none_iff n u t).mpr hc] at hd
        exact Option.noConfusion hd
      constructor
      · intro ⟨m, hm1, hm2⟩
        exact ⟨m, List.mem_cons_of_mem n hm1, by rw [← hk1]; exact hm2⟩
      · intro ⟨m, hm1, hm2⟩
        rcases List.mem_cons.mp hm1 with rfl | hm1
        · exact absurd hnk hm2
        · exact ⟨m, hm1, by rw [hk1]; exact hm2⟩

lemma addRevEdges_some (u : Int) : ∀ (ns : List Int) (t t' : Graph),
    addRevEdges t u ns = some t' →
    keys t' = keys t ∧
    (∀ a b, b ∈ getAdj t' a ↔ (b ∈ getAdj t a ∨ (b = u ∧ a ∈ ns))) := by
  intro ns
  induction ns with
  | nil =>
    intro t t' h
    obtain rfl := Option.some.inj h
    simp
  | cons n ns ih =>
    intro t t' h
    rw [addRevEdges] at h
    cases hd : dictAppend t n u with
    | none => rw [hd] at h; exact Option.noConfusion h
    | some t1 =>
      rw [hd] at h
      obtain ⟨k1, k2, k3⟩ := dictAppend_some n u t t1 hd
      obtain ⟨m1, m2⟩ := ih t1 t' h
      refine ⟨by rw [m1, k1], ?_⟩
      intro a b
      rw [m2 a b]
      by_cases ha : a = n
      · subst ha
        rw [k2]
        simp only [List.mem_append, List.mem_singleton, List.mem_cons,
          List.not_mem_nil, or_false]
        tauto
      · rw [k3 a ha]
        simp only [List.mem_cons]
        constructor
        · intro hh
          rcases hh with hh | hh
          · exact Or.inl hh
          · exact Or.inr ⟨hh.1, Or.inr hh.2⟩
        · intro hh
          rcases hh with hh | ⟨rfl, hh⟩
          · exact Or.inl hh
          · rcases hh with hh | hh
            · exact absurd hh ha
            · exact Or.inr ⟨rfl, hh⟩

lemma transposeAux_none_iff : ∀ (entries : Graph) (t : Graph),
    transposeAux t entries = none ↔ ∃ p ∈ entries, ∃ n ∈ p.2, n ∉ keys t := by
  intro entries
  induction entries with
  | nil => simp [transposeAux]
  | cons p rest ih =>
    intro t
    obtain ⟨u, ns⟩ := p
    rw [transposeAux]
    cases hd : addRevEdges t u ns with
    | none =>
      simp only [true_iff]
      obtain ⟨n, hn1, hn2⟩ := (addRevEdges_none_iff u ns t).mp hd
      exact ⟨(u, ns), List.mem_cons_self _ _, n, hn1, hn2⟩
    | some t1 =>
      obtain ⟨k1, _⟩ := addRevEdges_some u ns t t1 hd
      rw [ih t1]
      constructor
      · intro ⟨q, hq1, n, hn1, hn2⟩
        exact ⟨q, List.mem_cons_of_mem _ hq1, n, hn1, by rw [← k1]; exact hn2⟩
      · intro ⟨q, hq1, n, hn1, hn2⟩
        rcases List.mem_cons.mp hq1 with rfl | hq1
        · exfalso
          have : ¬ ∃ m ∈ ns, m ∉ keys t := by
            rw [← addRevEdges_none_iff u ns t, hd]
            simp
          exact this ⟨n, hn1, hn2⟩
        · exact ⟨q, hq1, n, hn1, by rw [k1]; exact hn2⟩

lemma transposeAux_some : ∀ (entries : Graph) (t t' : Graph),
    transposeAux t entries = some t' →
    keys t' = keys t ∧
    (∀ a b, b ∈ getAdj t' a ↔
      (b ∈ getAdj t a ∨ ∃ p ∈ entries, a ∈ p.2 ∧ b = p.1)) := by
  intro entries
  induction entries with
  | nil =>
    intro t t' h
    obtain rfl := Option.some.inj h
    simp
  | cons p rest ih =>
    intro t t' h
    obtain ⟨u, ns⟩ := p
    rw [transposeAux] at h
    cases hd : addRevEdges t u ns with
    | none => rw [hd] at h; exact Option.noConfusion h
    | some t1 =>
      rw [hd] at h
      obtain ⟨k1, k2⟩ := addRevEdges_some u ns t t1 hd
      obtain ⟨m1, m2⟩ := ih t1 t' h
      refine ⟨by rw [m1, k1], ?_⟩
      intro a b
      rw [m2 a b, k2 a b]
      simp only [List.mem_cons]
      constructor
      · intro hh
        rcases hh with (hh | hh) | ⟨q, hq, hh⟩
        · exact Or.inl hh
        · exact Or.inr ⟨(u, ns), Or.inl rfl, hh.2, hh.1⟩
        · exact Or.inr ⟨q, Or.inr hq, hh⟩
      · intro hh
        rcases hh with hh | ⟨q, hq, hh⟩
        · exact Or.inl (Or.inl hh)
        · rcases hq with rfl | hq
          · exact Or.inl (Or.inr ⟨hh.2, hh.1⟩)
          · exact Or.inr ⟨q, hq, hh⟩

lemma keys_initTranspose (g : Graph) :
    keys (g.map (fun p => (p.1, ([] : List Int)))) = keys g := by
  simp [keys, List.map_map]

lemma getAdj_initTranspose (g : Graph) (a : Int) :
    getAdj (g.map (fun p => (p.1, ([] : List Int)))) a = [] := by
  induction g with
  | nil => simp [getAdj]
  | cons p rest ih =>
    rw [List.map_cons, getAdj_cons]
    by_cases h : p.1 = a
    · rw [if_pos h]
    · rw [if_neg h]
      exact ih

lemma getAdj_of_mem_nodup (g : Graph) (hg : (keys g).Nodup) :
    ∀ p ∈ g, getAdj g p.1 = p.2 := by
  induction g with
  | nil => simp
  | cons q rest ih =>
    intro p hp
    obtain ⟨q1, q2⟩ := q
    rw [keys_cons, List.nodup_cons] at hg
    rcases List.mem_cons.mp hp with rfl | hp
    · rw [getAdj_cons, if_pos rfl]
    · rw [getAdj_cons]
      by_cases hh : q1 = p.1
      · exfalso
        apply hg.1
        rw [hh]
        exact List.mem_map_of_mem Prod.fst hp
      · rw [if_neg hh]
        exact ih hg.2 p hp

lemma exists_entry_of_edge (g : Graph) (u v : Int) (h : Edge g u v) :
    ∃ l, (u, l) ∈ g ∧ v ∈ l := by
  rw [Edge] at h
  unfold getAdj at h
  cases hfind : g.find? (fun p => p.1 == u) with
  | none => rw [hfind] at h; simp at h
  | some p =>
    rw [hfind] at h
    have hmem := List.mem_of_find?_eq_some hfind
    have hkey := List.find?_some hfind
    simp only [beq_iff_eq] at hkey
    exact ⟨p.2, by rw [← hkey]; exact hmem, h⟩

lemma transpose_none_iff (g : Graph) (hg : (keys g).Nodup) :
    transpose g = none ↔ ∃ u v, Edge g u v ∧ v ∉ keys g := by
  rw [transpose, transposeAux_none_iff]
  constructor
  · intro ⟨p, hp, n, hn1, hn2⟩
    rw [keys_initTranspose] at hn2
    refine ⟨p.1, n, ?_, hn2⟩
    rw [Edge, getAdj_of_mem_nodup g hg p hp]
    exact hn1
  · intro ⟨u, v, he, hv⟩
    obtain ⟨l, hl, hvl⟩ := exists_entry_of_edge g u v he
    exact ⟨(u, l), hl, v, hvl, by rw [keys_initTranspose]; exact hv⟩

lemma transpose_some (g : Graph) (hg : (keys g).Nodup) (T : Graph)
    (h : transpose g = some T) :
    keys T = keys g ∧ (∀ a b, Edge T a b ↔ Edge g b a) := by
  obtain ⟨k1, k2⟩ := transposeAux_some g _ T h
  rw [keys_initTranspose] at k1
  refine ⟨k1, ?_⟩
  intro a b
  rw [Edge, k2 a b, getAdj_initTranspose]
  simp only [List.not_mem_nil, false_or]
  constructor
  · intro ⟨p, hp, ha, hb⟩
    rw [Edge, hb, getAdj_of_mem_nodup g hg p hp]
    exact ha
  · intro he
    obtain ⟨l, hl, hal⟩ := exists_entry_of_edge g b a he
    exact ⟨(b, l), hl, hal, rfl⟩

lemma sameSCC_refl (g : Graph) (u : Int) : SameSCC g u u :=
  ⟨Relation.ReflTransGen.refl, Relation.ReflTransGen.refl⟩

lemma sameSCC_symm (g : Graph) (u v : Int) (h : SameSCC g u v) : SameSCC g v u :=
  ⟨h.2, h.1⟩

lemma sameSCC_trans (g : Graph) (u v w : Int) (h1 : SameSCC g u v)
    (h2 : SameSCC g v w) : SameSCC g u w :=
  ⟨h1.1.trans h2.1, h2.2.trans h1.2⟩

lemma reach_transpose (g t : Graph) (hT : ∀ a b, Edge t a b ↔ Edge g b a) :
    ∀ a b, Reach t a b → Reach g b a := by
  intro a b h
  induction h with
  | refl => exact Relation.ReflTransGen.refl
  | tail _ hstep ih => exact Relation.ReflTransGen.head ((hT _ _).mp hstep) ih

lemma reach_reverse_avoid (g t : Graph) (hT : ∀ a b, Edge t a b ↔ Edge g b a)
    (vis : List Int) :
    ∀ x v, Reach g x v → (∀ w, Reach g x w → Reach g w v → w ∉ vis) →
      ReachAvoid t vis v x := by
  intro x v hxv
  induction hxv using Relation.ReflTransGen.head_induction_on with
  | refl =>
    intro _
    exact Relation.ReflTransGen.refl
  | @head a c hstep hrest ih =>
    intro hside
    have hc : ReachAvoid t vis v c :=
      ih (fun w hw1 hw2 => hside w (Relation.ReflTransGen.head hstep hw1) hw2)
    exact hc.tail ⟨(hT c a).mpr hstep,
      hside a Relation.ReflTransGen.refl (Relation.ReflTransGen.head hstep hrest)⟩

lemma pySorted_mem (l : List Int) (x : Int) : x ∈ pySorted l ↔ x ∈ l := by
  rw [pySorted]
  exact List.mem_insertionSort (· ≤ ·)

lemma pySorted_sorted_lt (l : List Int) (hnd : l.Nodup) :
    List.Sorted (· < ·) (pySorted l) := by
  have hle : List.Sorted (· ≤ ·) (pySorted l) :=
    List.sorted_insertionSort (· ≤ ·) l
  have hnd2 : (pySorted l).Nodup :=
    (List.perm_insertionSort (· ≤ ·) l).nodup_iff.mpr hnd
  exact hle.lt_of_le hnd2

/-- Characterization of one unvisited pop step of the second pass: the
collected component is exactly the strongly connected component of the popped
vertex, and the new visited set is the old one plus that component. -/
lemma collect_scc (g t : Graph) (hT : ∀ a b, Edge t a b ↔ Edge g b a)
    (s : List Int) (hnd : s.Nodup) (hord : OrdFinal g s)
    (hSfull : ∀ x, x ∈ s ↔ x ∈ keys g)
    (vis : List Int) (hclosed : ∀ a b, a ∈ vis → SameSCC g a b → b ∈ vis)
    (v : Int) (hv : v ∉ vis)
    (A B : List Int) (hsplit : s = A ++ v :: B) (hB : ∀ b ∈ B, b ∈ vis) :
    (∀ x, x ∈ collComp t (getAdj t v) (v :: vis) [v] ↔ SameSCC g v x) ∧
    (∀ x, x ∈ collVis t (getAdj t v) (v :: vis) [v] ↔ (x ∈ vis ∨ SameSCC g v x)) ∧
    (collComp t (getAdj t v) (v :: vis) [v]).Nodup := by
  obtain ⟨G, hc1, hc2, hc3, hc4, hc5, hc6, hc7⟩ :=
    dfs_collect_shape t (getAdj t v) (v :: vis) [v]
  have hvs : v ∈ s := (hSfull v).mpr ((hSfull v).mp (by rw [hsplit]; simp))
  -- membership in the collected component implies mutual reachability with v
  have hsub : ∀ x, x ∈ collComp t (getAdj t v) (v :: vis) [v] → SameSCC g v x := by
    intro x hx
    rw [hc1] at hx
    rcases List.mem_cons.mp (by simpa using hx) with rfl | hx
    · exact sameSCC_refl g x
    · -- x is newly collected: x reaches v in g
      have hxv : x ∉ v :: vis := hc4 x hx
      have hxvis : x ∉ vis := fun hc => hxv (List.mem_cons_of_mem v hc)
      have hxne : x ≠ v := fun hc => hxv (hc ▸ List.mem_cons_self v vis)
      obtain ⟨w, hw, hrw⟩ := hc7 x hx
      have hxw : Reach g x w := reach_transpose g t hT w x hrw
      have hwv : Edge g w v := (hT v w).mp hw
      have hreach_xv : Reach g x v := hxw.tail hwv
      -- x is on the stack strictly below v
      have hxkeys : x ∈ keys g := reach_source_key g x v hreach_xv hxne
      have hxs : x ∈ s := (hSfull x).mpr hxkeys
      have hxA : x ∈ A := by
        rw [hsplit] at hxs
        rcases List.mem_append.mp hxs with h | h
        · exact h
        · rcases List.mem_cons.mp h with h | h
          · exact absurd h hxne
          · exact absurd (hB x h) hxvis
      obtain ⟨A1, A2, rfl⟩ := List.append_of_mem hxA
      have hsplit2 : s = A1 ++ x :: (A2 ++ v :: B) := by
        rw [hsplit]
        simp
      have hvx : Reach g v x :=
        popclaim g s hord hnd vis hclosed v B hB hv A2.length A1 x A2 hsplit2
          le_rfl hxvis hreach_xv
      exact ⟨hvx, hreach_xv⟩
  -- mutual reachability with v implies membership in the collected component
  have hsup : ∀ x, SameSCC g v x → x ∈ collComp t (getAdj t v) (v :: vis) [v] := by
    intro x hx
    have hside : ∀ w, Reach g x w → Reach g w v → w ∉ vis := by
      intro w hw1 hw2 hwvis
      exact hv (hclosed w v hwvis ⟨hw2, hx.1.trans hw1⟩)
    have havoid : ReachAvoid t vis v x :=
      reach_reverse_avoid g t hT vis x v hx.2 hside
    have hxvis1 : x ∈ collVis t (getAdj t v) (v :: vis) [v] :=
      collect_complete t vis v hv x havoid
    have hxnotvis : x ∉ vis :=
      hside x Relation.ReflTransGen.refl hx.2
    rcases (hc2 x).mp hxvis1 with h | h
    · rcases List.mem_cons.mp h with rfl | h
      · rw [hc1]
        simp
      · exact absurd h hxnotvis
    · rw [hc1]
      simp only [List.cons_append, List.nil_append, List.mem_cons]
      exact Or.inr h
  refine ⟨fun x => ⟨hsub x, hsup x⟩, ?_, ?_⟩
  · intro x
    rw [hc2 x]
    constructor
    · intro h
      rcases h with h | h
      · rcases List.mem_cons.mp h with rfl | h
        · exact Or.inr (sameSCC_refl g x)
        · exact Or.inl h
      · exact Or.inr (hsub x (by rw [hc1]; simp [h]))
    · intro h
      rcases h with h | h
      · exact Or.inl (List.mem_cons_of_mem v h)
      · have := hsup x h
        rw [hc1] at this
        rcases List.mem_cons.mp (by simpa using this) with rfl | hh
        · exact Or.inl (List.mem_cons_self x vis)
        · exact Or.inr hh
  · rw [hc1]
    simp only [List.cons_append, List.nil_append]
    rw [List.nodup_cons]
    refine ⟨?_, hc3⟩
    intro hc
    exact (hc4 v hc) (List.mem_cons_self v vis)

lemma popLoop_nil (t : Graph) (vis : List Int) (sccs : List (List Int)) :
    popLoop t [] vis sccs = sccs := by
  simp [popLoop]

lemma popLoop_cons_visited (t : Graph) (v : Int) (rest vis : List Int)
    (sccs : List (List Int)) (hv : v ∈ vis) :
    popLoop t (v :: rest) vis sccs = popLoop t rest vis sccs := by
  simp [popLoop, hv]

lemma popLoop_cons_unvisited (t : Graph) (v : Int) (rest vis : List Int)
    (sccs : List (List Int)) (hv : v ∉ vis) :
    popLoop t (v :: rest) vis sccs =
      popLoop t rest (collVis t (getAdj t v) (v :: vis) [v])
        (sccs ++ [pySorted (collComp t (getAdj t v) (v :: vis) [v])]) := by
  simp [popLoop, collVis, collComp, hv]

/-- Invariant-threading induction over the `while stack:` loop of the second
pass. The worklist `o` is the not-yet-popped part of the reversed stack. -/
lemma popLoop_inv (g t : Graph) (hT : ∀ a b, Edge t a b ↔ Edge g b a)
    (s : List Int) (hnd : s.Nodup) (hord : OrdFinal g s)
    (hSfull : ∀ x, x ∈ s ↔ x ∈ keys g) :
    ∀ (o done vis : List Int) (sccs : List (List Int)),
    s.reverse = done ++ o →
    (∀ x ∈ done, x ∈ vis) →
    (∀ a b, a ∈ vis → SameSCC g a b → b ∈ vis) →
    (∀ x ∈ vis, x ∈ keys g) →
    (∀ x, x ∈ vis ↔ ∃ C ∈ sccs, x ∈ C) →
    (∀ C ∈ sccs, (∃ r, ∀ x, (x ∈ C ↔ SameSCC g r x)) ∧ C ≠ [] ∧
      List.Sorted (· < ·) C) →
    List.Pairwise (fun C D => ∀ x, x ∈ C → x ∉ D) sccs →
    (∀ C ∈ popLoop t o vis sccs, (∃ r, ∀ x, (x ∈ C ↔ SameSCC g r x)) ∧ C ≠ [] ∧
      List.Sorted (· < ·) C) ∧
    List.Pairwise (fun C D => ∀ x, x ∈ C → x ∉ D) (popLoop t o vis sccs) ∧
    (∀ x, (∃ C ∈ popLoop t o vis sccs, x ∈ C) ↔
      (x ∈ vis ∨ ∃ r ∈ o, r ∉ vis ∧ SameSCC g r x)) := by
  intro o
  induction o with
  | nil =>
    intro done vis sccs hsplit hdone hclosed hviskeys hvis_sccs hgood hdisj
    rw [popLoop_nil]
    refine ⟨hgood, hdisj, ?_⟩
    intro x
    rw [← hvis_sccs x]
    simp
  | cons v rest ih =>
    intro done vis sccs hsplit hdone hclosed hviskeys hvis_sccs hgood hdisj
    by_cases hv : v ∈ vis
    · rw [popLoop_cons_visited t v rest vis sccs hv]
      have hsplit2 : s.reverse = (done ++ [v]) ++ rest := by
        rw [hsplit]
        simp
      have hdone2 : ∀ x ∈ done ++ [v], x ∈ vis := by
        intro x hx
        rcases List.mem_append.mp hx with hx | hx
        · exact hdone x hx
        · rw [List.mem_singleton.mp hx]
          exact hv
      obtain ⟨c1, c2, c3⟩ := ih (done ++ [v]) vis sccs hsplit2 hdone2 hclosed
        hviskeys hvis_sccs hgood hdisj
      refine ⟨c1, c2, ?_⟩
      intro x
      rw [c3 x]
      constructor
      · intro h
        rcases h with h | ⟨r, hr1, hr2, hr3⟩
        · exact Or.inl h
        · exact Or.inr ⟨r, List.mem_cons_of_mem v hr1, hr2, hr3⟩
      · intro h
        rcases h with h | ⟨r, hr1, hr2, hr3⟩
        · exact Or.inl h
        · rcases List.mem_cons.mp hr1 with rfl | hr1
          · exact absurd hv hr2
          · exact Or.inr ⟨r, hr1, hr2, hr3⟩
    · rw [popLoop_cons_unvisited t v rest vis sccs hv]
      -- the split of the stack at v
      have hs_eq : s = rest.reverse ++ v :: done.reverse := by
        have := congrArg List.reverse hsplit
        rw [List.reverse_reverse] at this
        rw [this]
        simp
      have hB : ∀ b ∈ done.reverse, b ∈ vis := by
        intro b hb
        exact hdone b (List.mem_reverse.mp hb)
      obtain ⟨hcomp, hvis1, hcompnd⟩ := collect_scc g t hT s hnd hord hSfull vis
        hclosed v hv rest.reverse done.reverse hs_eq hB
      -- new state
      have hsplit2 : s.reverse = (done ++ [v]) ++ rest := by
        rw [hsplit]
        simp
      have hdone2 : ∀ x ∈ done ++ [v], x ∈ collVis t (getAdj t v) (v :: vis) [v] := by
        intro x hx
        rcases List.mem_append.mp hx with hx | hx
        · exact (hvis1 x).mpr (Or.inl (hdone x hx))
        · rw [List.mem_singleton.mp hx]
          exact (hvis1 v).mpr (Or.inr (sameSCC_refl g v))
      have hclosed2 : ∀ a b, a ∈ collVis t (getAdj t v) (v :: vis) [v] →
          SameSCC g a b → b ∈ collVis t (getAdj t v) (v :: vis) [v] := by
        intro a b ha hab
        rcases (hvis1 a).mp ha with ha | ha
        · exact (hvis1 b).mpr (Or.inl (hclosed a b ha hab))
        · exact (hvis1 b).mpr (Or.inr (sameSCC_trans g v a b ha hab))
      have hviskeys2 : ∀ x ∈ collVis t (getAdj t v) (v :: vis) [v], x ∈ keys g := by
        intro x hx
        rcases (hvis1 x).mp hx with hx | hx
        · exact hviskeys x hx
        · by_cases hxv : x = v
          · subst hxv
            exact (hSfull x).mp (by rw [hs_eq]; simp)
          · exact reach_source_key g x v hx.2 hxv
      have hvis_sccs2 : ∀ x, x ∈ collVis t (getAdj t v) (v :: vis) [v] ↔
          ∃ C ∈ sccs ++ [pySorted (collComp t (getAdj t v) (v :: vis) [v])], x ∈ C := by
        intro x
        rw [hvis1 x]
        constructor
        · intro h
          rcases h with h | h
          · obtain ⟨C, hC1, hC2⟩ := (hvis_sccs x).mp h
            exact ⟨C, List.mem_append.mpr (Or.inl hC1), hC2⟩
          · refine ⟨pySorted (collComp t (getAdj t v) (v :: vis) [v]),
              List.mem_append.mpr (Or.inr (List.mem_singleton.mpr rfl)), ?_⟩
            rw [pySorted_mem]
            exact (hcomp x).mpr h
        · intro ⟨C, hC1, hC2⟩
          rcases List.mem_append.mp hC1 with hC1 | hC1
          · exact Or.inl ((hvis_sccs x).mpr ⟨C, hC1, hC2⟩)
          · rw [List.mem_singleton.mp hC1, pySorted_mem] at hC2
            exact Or.inr ((hcomp x).mp hC2)
      have hgood2 : ∀ C ∈ sccs ++ [pySorted (collComp t (getAdj t v) (v :: vis) [v])],
          (∃ r, ∀ x, (x ∈ C ↔ SameSCC g r x)) ∧ C ≠ [] ∧ List.Sorted (· < ·) C := by
        intro C hC
        rcases List.mem_append.mp hC with hC | hC
        · exact hgood C hC
        · rw [List.mem_singleton.mp hC]
          refine ⟨⟨v, ?_⟩, ?_, pySorted_sorted_lt _ hcompnd⟩
          · intro x
            rw [pySorted_mem]
            exact hcomp x
          · intro hc
            have : v ∈ pySorted (collComp t (getAdj t v) (v :: vis) [v]) := by
              rw [pySorted_mem]
              exact (hcomp v).mpr (sameSCC_refl g v)
            rw [hc] at this
            simp at this
      have hdisj2 : List.Pairwise (fun C D => ∀ x, x ∈ C → x ∉ D)
          (sccs ++ [pySorted (collComp t (getAdj t v) (v :: vis) [v])]) := by
        rw [List.pairwise_append]
        refine ⟨hdisj, by simp, ?_⟩
        intro C hC D hD x hxC hxD
        rw [List.mem_singleton.mp hD, pySorted_mem] at hxD
        have hxvis : x ∈ vis := (hvis_sccs x).mpr ⟨C, hC, hxC⟩
        have hxscc : SameSCC g v x := (hcomp x).mp hxD
        exact hv (hclosed x v hxvis (sameSCC_symm g v x hxscc))
      obtain ⟨c1, c2, c3⟩ := ih (done ++ [v]) (collVis t (getAdj t v) (v :: vis) [v])
        (sccs ++ [pySorted (collComp t (getAdj t v) (v :: vis) [v])])
        hsplit2 hdone2 hclosed2 hviskeys2 hvis_sccs2 hgood2 hdisj2
      refine ⟨c1, c2, ?_⟩
      intro x
      rw [c3 x]
      constructor
      · intro h
        rcases h with h | ⟨r, hr1, hr2, hr3⟩
        · rcases (hvis1 x).mp h with h | h
          · exact Or.inl h
          · exact Or.inr ⟨v, List.mem_cons_self v rest, hv, h⟩
        · have hrvis : r ∉ vis := fun hc => hr2 ((hvis1 r).mpr (Or.inl hc))
          exact Or.inr ⟨r, List.mem_cons_of_mem v hr1, hrvis, hr3⟩
      · intro h
        rcases h with h | ⟨r, hr1, hr2, hr3⟩
        · exact Or.inl ((hvis1 x).mpr (Or.inl h))
        · rcases List.mem_cons.mp hr1 with rfl | hr1
          · exact Or.inl ((hvis1 x).mpr (Or.inr hr3))
          · by_cases hrvis1 : r ∈ collVis t (getAdj t v) (v :: vis) [v]
            · rcases (hvis1 r).mp hrvis1 with hh | hh
              · exact absurd hh hr2
              · exact Or.inl ((hvis1 x).mpr (Or.inr (sameSCC_trans g v r x hh hr3)))
            · exact Or.inr ⟨r, hr1, hrvis1, hr3⟩

lemma kosaraju_eq_popLoop (g : Graph) (hne : g ≠ []) (T : Graph)
    (htr : transpose g = some T) :
    kosaraju g = some (popLoop T (kstack g).reverse [] []) := by
  rw [kosaraju, if_neg hne, htr]
  rfl

lemma edge_nil (u v : Int) : ¬ Edge ([] : Graph) u v := by
  rw [Edge]
  simp [getAdj]

/-- The run of `kosaraju` raises a `KeyError` (modelled as `none`) exactly
when some edge target is not a key of the graph. -/
lemma kosaraju_eq_none_iff (g : Graph) (hg : (keys g).Nodup) :
    kosaraju g = none ↔ ∃ u v, Edge g u v ∧ v ∉ keys g := by
  by_cases hne : g = []
  · subst hne
    rw [kosaraju, if_pos rfl]
    constructor
    · intro h
      exact Option.noConfusion h
    · intro ⟨u, v, he, _⟩
      exact absurd he (edge_nil u v)
  · rw [kosaraju, if_neg hne]
    cases htr : transpose g with
    | none =>
      simp only [true_iff]
      exact (transpose_none_iff g hg).mp htr
    | some T =>
      simp only [reduceCtorEq, false_iff]
      intro hbad
      have := (transpose_none_iff g hg).mpr hbad
      rw [htr] at this
      exact Option.noConfusion this

/-- Master correctness theorem for a successful run of `kosaraju`: every
returned component is exactly the strongly connected component of some
representative vertex, components are non-empty and strictly ascending,
pairwise disjoint, and together they cover exactly the keys of the graph. -/
lemma kosaraju_master (g : Graph) (hg : (keys g).Nodup) (out : List (List Int))
    (h : kosaraju g = some out) :
    (∀ C ∈ out, (∃ r, ∀ x, (x ∈ C ↔ SameSCC g r x)) ∧ C ≠ [] ∧
      List.Sorted (· < ·) C) ∧
    List.Pairwise (fun C D => ∀ x, x ∈ C → x ∉ D) out ∧
    (∀ x, (∃ C ∈ out, x ∈ C) ↔ x ∈ keys g) := by
  by_cases hne : g = []
  · subst hne
    rw [kosaraju, if_pos rfl] at h
    obtain rfl := Option.some.inj h
    refine ⟨by simp, by simp, ?_⟩
    intro x
    simp [keys]
  · cases htr : transpose g with
    | none =>
      rw [kosaraju, if_neg hne, htr] at h
      exact Option.noConfusion h
    | some T =>
      rw [kosaraju_eq_popLoop g hne T htr] at h
      obtain rfl := Option.some.inj h
      -- all edge targets are keys, since transpose construction succeeded
      have htk : ∀ u w, Edge g u w → w ∈ keys g := by
        intro u w he
        by_contra hc
        have := (transpose_none_iff g hg).mpr ⟨u, w, he, hc⟩
        rw [htr] at this
        exact Option.noConfusion this
      obtain ⟨hTkeys, hT⟩ := transpose_some g hg T htr
      obtain ⟨hknd, hkin, hksnd, hkclo, hkord⟩ := kstack_facts g
      have hSfull : ∀ x, x ∈ kstack g ↔ x ∈ keys g := by
        intro x
        constructor
        · intro hx
          obtain ⟨v, hv, hr⟩ := hksnd x hx
          exact reach_mem_keys g htk v x hr hv
        · exact hkin x
      obtain ⟨c1, c2, c3⟩ := popLoop_inv g T hT (kstack g) hknd hkord hSfull
        (kstack g).reverse [] [] [] (by simp) (by simp) (by simp) (by simp)
        (by simp) (by simp) (by simp)
      refine ⟨c1, c2, ?_⟩
      intro x
      rw [c3 x]
      constructor
      · intro hcov
        rcases hcov with hx | ⟨r, hr1, hr2, hr3⟩
        · simp at hx
        · have hrk : r ∈ kstack g := List.mem_reverse.mp hr1
          by_cases hxr : x = r
          · subst hxr
            exact (hSfull x).mp hrk
          · exact reach_source_key g x r hr3.2 hxr
      · intro hx
        exact Or.inr ⟨x, List.mem_reverse.mpr ((hSfull x).mpr hx), by simp,
          sameSCC_refl g x⟩

lemma edge_targets_keys_of_entries (g : Graph)
    (h : ∀ p ∈ g, ∀ v ∈ p.2, v ∈ keys g) : ∀ u v, Edge g u v → v ∈ keys g := by
  intro u v he
  obtain ⟨l, hl, hvl⟩ := exists_entry_of_edge g u v he
  exact h (u, l) hl v hvl

lemma kosaraju_total_of_targets_keys (g : Graph) (hg : (keys g).Nodup)
    (htk : ∀ u v, Edge g u v → v ∈ keys g) : ∃ out, kosaraju g = some out := by
  cases hh : kosaraju g with
  | none =>
    obtain ⟨u, v, he, hv⟩ := (kosaraju_eq_none_iff g hg).mp hh
    exact absurd (htk u v he) hv
  | some out => exact ⟨out, rfl⟩

lemma reach_congr (g1 g2 : Graph) (he : ∀ u v, Edge g1 u v ↔ Edge g2 u v) :
    ∀ a b, Reach g1 a b ↔ Reach g2 a b := by
  intro a b
  constructor
  · exact Relation.ReflTransGen.mono (fun x y h => (he x y).mp h)
  · exact Relation.ReflTransGen.mono (fun x y h => (he x y).mpr h)

lemma sameSCC_congr (g1 g2 : Graph) (he : ∀ u v, Edge g1 u v ↔ Edge g2 u v) :
    ∀ a b, SameSCC g1 a b ↔ SameSCC g2 a b := by
  intro a b
  rw [SameSCC, SameSCC, reach_congr g1 g2 he a b, reach_congr g1 g2 he b a]

lemma components_transfer_half (g1 g2 : Graph) (out1 out2 : List (List Int))
    (hscc : ∀ a b, SameSCC g1 a b ↔ SameSCC g2 a b)
    (hk : ∀ x, x ∈ keys g1 ↔ x ∈ keys g2)
    (m1 : ∀ C ∈ out1, ∃ r, ∀ x, (x ∈ C ↔ SameSCC g1 r x))
    (m2 : ∀ C ∈ out2, ∃ r, ∀ x, (x ∈ C ↔ SameSCC g2 r x))
    (cov1 : ∀ x, (∃ C ∈ out1, x ∈ C) ↔ x ∈ keys g1)
    (cov2 : ∀ x, (∃ C ∈ out2, x ∈ C) ↔ x ∈ keys g2) :
    ∀ C ∈ out1, ∃ D ∈ out2, ∀ x, x ∈ C ↔ x ∈ D := by
  intro C hC
  obtain ⟨r, hr⟩ := m1 C hC
  have hrC : r ∈ C := (hr r).mpr (sameSCC_refl g1 r)
  have hrk : r ∈ keys g2 := (hk r).mp ((cov1 r).mp ⟨C, hC, hrC⟩)
  obtain ⟨D, hD, hrD⟩ := (cov2 r).mpr hrk
  obtain ⟨r2, hr2⟩ := m2 D hD
  have hr2r : SameSCC g2 r2 r := (hr2 r).mp hrD
  refine ⟨D, hD, ?_⟩
  intro x
  rw [hr x, hr2 x, hscc r x]
  constructor
  · intro h
    exact sameSCC_trans g2 r2 r x hr2r h
  · intro h
    exact sameSCC_trans g2 r r2 x (sameSCC_symm g2 r2 r hr2r) h

/-- Evaluation of `kosaraju` on the worked example graph of the source. -/
lemma kosaraju_exampleGraph_eval :
    kosaraju exampleGraph = some [[7], [0, 1, 2, 3, 4, 5, 6]] := by
  simp [kosaraju, exampleGraph, dfs_fill, dfs_collect, popLoop, transpose,
    transposeAux, addRevEdges, dictAppend, keys, getAdj, pySorted]

lemma kosaraju_missing_key_eval : kosaraju [((0 : Int), [(1 : Int)])] = none := by
  simp [kosaraju, dfs_fill, transpose, transposeAux, addRevEdges, dictAppend,
    keys, getAdj]

/-- C1: for every graph accepted by `kosaraju` (a dict, i.e. distinct keys,
on which the call returns), any two vertices in the same returned component
are mutually reachable via directed edges of the original graph, and each
component is maximal: no key-vertex outside the component is mutually
reachable with a vertex inside it. -/
theorem kosaraju_mutual_reach_and_maximal (g : Graph) (hg : (keys g).Nodup)
    (out : List (List Int)) (h : kosaraju g = some out) :
    (∀ C ∈ out, ∀ u ∈ C, ∀ v ∈ C, Reach g u v ∧ Reach g v u) ∧
    (∀ C ∈ out, ∀ u ∈ C, ∀ v, v ∈ keys g → v ∉ C →
      ¬(Reach g u v ∧ Reach g v u)) := by
  obtain ⟨c1, _, _⟩ := kosaraju_master g hg out h
  constructor
  · intro C hC u hu v hv
    obtain ⟨⟨r, hr⟩, _, _⟩ := c1 C hC
    exact sameSCC_trans g u r v (sameSCC_symm g r u ((hr u).mp hu)) ((hr v).mp hv)
  · intro C hC u hu v _ hvC hmut
    obtain ⟨⟨r, hr⟩, _, _⟩ := c1 C hC
    exact hvC ((hr v).mpr (sameSCC_trans g r u v ((hr u).mp hu) hmut))

/-- Witness for C1 at the worked example graph. -/
theorem kosaraju_mutual_reach_and_maximal_witness :
    (keys exampleGraph).Nodup ∧
    kosaraju exampleGraph = some [[7], [0, 1, 2, 3, 4, 5, 6]] ∧
    ((∀ C ∈ [[7], [0, 1, 2, 3, 4, 5, 6]], ∀ u ∈ C, ∀ v ∈ C,
        Reach exampleGraph u v ∧ Reach exampleGraph v u) ∧
      (∀ C ∈ [[7], [0, 1, 2, 3, 4, 5, 6]], ∀ u ∈ C, ∀ v, v ∈ keys exampleGraph →
        v ∉ C → ¬(Reach exampleGraph u v ∧ Reach exampleGraph v u))) :=
  ⟨by decide, kosaraju_exampleGraph_eval,
    kosaraju_mutual_reach_and_maximal exampleGraph (by decide) _
      kosaraju_exampleGraph_eval⟩

/-- C2: for any accepted graph, the returned components partition the key set:
their union is exactly the set of keys and distinct components are pairwise
disjoint. -/
theorem kosaraju_partition (g : Graph) (hg : (keys g).Nodup)
    (out : List (List Int)) (h : kosaraju g = some out) :
    (∀ x, (∃ C ∈ out, x ∈ C) ↔ x ∈ keys g) ∧
    List.Pairwise (fun C D => ∀ x, x ∈ C → x ∉ D) out := by
  obtain ⟨_, c2, c3⟩ := kosaraju_master g hg out h
  exact ⟨c3, c2⟩

/-- Witness for C2 at the worked example graph. -/
theorem kosaraju_partition_witness :
    (keys exampleGraph).Nodup ∧
    ((∀ x, (∃ C ∈ [[7], [0, 1, 2, 3, 4, 5, 6]], x ∈ C) ↔ x ∈ keys exampleGraph) ∧
      List.Pairwise (fun C D => ∀ x, x ∈ C → x ∉ D)
        ([[7], [0, 1, 2, 3, 4, 5, 6]] : List (List Int))) :=
  ⟨by decide, kosaraju_partition exampleGraph (by decide) _
    kosaraju_exampleGraph_eval⟩

/-- C3 counterexample: the dict `{0: [1]}` is a finite graph of the data model
with an edge whose target `1` is not a key, and `kosaraju` raises on it
(modelled as `none`) instead of returning, so the claimed totality on graphs
with non-key edge targets is false. -/
theorem kosaraju_total_counterexample :
    (keys [((0 : Int), [(1 : Int)])]).Nodup ∧
    Edge [((0 : Int), [(1 : Int)])] 0 1 ∧
    (1 : Int) ∉ keys [((0 : Int), [(1 : Int)])] ∧
    kosaraju [((0 : Int), [(1 : Int)])] = none := by
  refine ⟨by decide, ?_, by decide, kosaraju_missing_key_eval⟩
  rw [Edge]
  decide

/-- C3 amended: `kosaraju` is total and raises no error on every finite graph
of the data model all of whose edge targets are keys of the mapping. -/
theorem kosaraju_total_on_closed_graphs (g : Graph) (hg : (keys g).Nodup)
    (htk : ∀ u v, Edge g u v → v ∈ keys g) :
    ∃ out, kosaraju g = some out :=
  kosaraju_total_of_targets_keys g hg htk

/-- Witness for the amended C3 at the worked example graph. -/
theorem kosaraju_total_on_closed_graphs_witness :
    (keys exampleGraph).Nodup ∧ ∃ out, kosaraju exampleGraph = some out :=
  ⟨by decide, kosaraju_total_on_closed_graphs exampleGraph (by decide)
    (edge_targets_keys_of_entries exampleGraph (by decide))⟩

/-- C4: on any run of `kosaraju` that returns, no returned component contains
a vertex that is not a key of the mapping; in particular vertices appearing
only as edge targets are excluded from the output. -/
theorem kosaraju_output_subset_keys (g : Graph) (hg : (keys g).Nodup)
    (out : List (List Int)) (h : kosaraju g = some out) :
    ∀ v, v ∉ keys g → ∀ C ∈ out, v ∉ C := by
  obtain ⟨_, _, c3⟩ := kosaraju_master g hg out h
  intro v hv C hC hvC
  exact hv ((c3 v).mp ⟨C, hC, hvC⟩)

/-- Witness for C4 at the worked example graph. -/
theorem kosaraju_output_subset_keys_witness :
    (keys exampleGraph).Nodup ∧
    (∀ v, v ∉ keys exampleGraph → ∀ C ∈ [[7], [0, 1, 2, 3, 4, 5, 6]], v ∉ C) :=
  ⟨by decide, kosaraju_output_subset_keys exampleGraph (by decide) _
    kosaraju_exampleGraph_eval⟩

/-- C5: on the worked example graph the function returns exactly two
components, the sorted sequences `[0, 1, 2, 3, 4, 5, 6]` and `[7]` (in the
order `[[7], [0, 1, 2, 3, 4, 5, 6]]`). -/
theorem kosaraju_worked_example :
    kosaraju exampleGraph = some [[7], [0, 1, 2, 3, 4, 5, 6]] ∧
    ([[7], [0, 1, 2, 3, 4, 5, 6]] : List (List Int)).length = 2 ∧
    [0, 1, 2, 3, 4, 5, 6] ∈ ([[7], [0, 1, 2, 3, 4, 5, 6]] : List (List Int)) ∧
    [7] ∈ ([[7], [0, 1, 2, 3, 4, 5, 6]] : List (List Int)) :=
  ⟨kosaraju_exampleGraph_eval, by decide, by decide, by decide⟩

/-- C6: every component returned by `kosaraju` on an accepted graph is
strictly ascending and has no duplicate vertices. -/
theorem kosaraju_components_sorted (g : Graph) (hg : (keys g).Nodup)
    (out : List (List Int)) (h : kosaraju g = some out) :
    ∀ C ∈ out, List.Sorted (· < ·) C ∧ C.Nodup := by
  obtain ⟨c1, _, _⟩ := kosaraju_master g hg out h
  intro C hC
  obtain ⟨_, _, hsorted⟩ := c1 C hC
  exact ⟨hsorted, hsorted.nodup⟩

/-- Witness for C6 at a graph with a self-loop and parallel edges. -/
theorem kosaraju_components_sorted_witness :
    (keys [((0 : Int), [(0 : Int), 1, 1]), ((1 : Int), [(0 : Int)])]).Nodup ∧
    ∀ C ∈ [[(0 : Int), 1]], List.Sorted (· < ·) C ∧ C.Nodup := by
  refine ⟨by decide, ?_⟩
  apply kosaraju_components_sorted [((0 : Int), [(0 : Int), 1, 1]),
    ((1 : Int), [(0 : Int)])] (by decide)
  simp [kosaraju, dfs_fill, dfs_collect, popLoop, transpose, transposeAux,
    addRevEdges, dictAppend, keys, getAdj, pySorted]

/-- C7: two accepted graphs with the same key set and the same edge relation
(regardless of key or adjacency insertion order) produce the same set of
components, each component viewed as a set of vertices. -/
theorem kosaraju_order_independent (g1 g2 : Graph)
    (h1 : (keys g1).Nodup) (h2 : (keys g2).Nodup)
    (hk : ∀ x, x ∈ keys g1 ↔ x ∈ keys g2)
    (he : ∀ u v, Edge g1 u v ↔ Edge g2 u v)
    (out1 : List (List Int)) (ho1 : kosaraju g1 = some out1) :
    ∃ out2, kosaraju g2 = some out2 ∧
      (∀ C ∈ out1, ∃ D ∈ out2, ∀ x, x ∈ C ↔ x ∈ D) ∧
      (∀ D ∈ out2, ∃ C ∈ out1, ∀ x, x ∈ D ↔ x ∈ C) := by
  have hsucc2 : ∃ out2, kosaraju g2 = some out2 := by
    cases hh : kosaraju g2 with
    | none =>
      obtain ⟨u, v, hev, hvk⟩ := (kosaraju_eq_none_iff g2 h2).mp hh
      have : kosaraju g1 = none :=
        (kosaraju_eq_none_iff g1 h1).mpr
          ⟨u, v, (he u v).mpr hev, fun hc => hvk ((hk v).mp hc)⟩
      rw [ho1] at this
      exact Option.noConfusion this
    | some out2 => exact ⟨out2, rfl⟩
  obtain ⟨out2, ho2⟩ := hsucc2
  obtain ⟨m1, _, cov1⟩ := kosaraju_master g1 h1 out1 ho1
  obtain ⟨m2, _, cov2⟩ := kosaraju_master g2 h2 out2 ho2
  have hscc := sameSCC_congr g1 g2 he
  refine ⟨out2, ho2, ?_, ?_⟩
  · exact components_transfer_half g1 g2 out1 out2 hscc hk
      (fun C hC => (m1 C hC).1) (fun D hD => (m2 D hD).1) cov1 cov2
  · exact components_transfer_half g2 g1 out2 out1
      (fun a b => (hscc a b).symm) (fun x => (hk x).symm)
      (fun D hD => (m2 D hD).1) (fun C hC => (m1 C hC).1) cov2 cov1

/-- Witness for C7 on two insertion-order permutations of a two-cycle. -/
theorem kosaraju_order_independent_witness :
    (keys [((0 : Int), [(1 : Int)]), ((1 : Int), [(0 : Int)])]).Nodup ∧
    (keys [((1 : Int), [(0 : Int)]), ((0 : Int), [(1 : Int)])]).Nodup ∧
    ∃ out2, kosaraju [((1 : Int), [(0 : Int)]), ((0 : Int), [(1 : Int)])] =
        some out2 ∧
      (∀ C ∈ [[(0 : Int), 1]], ∃ D ∈ out2, ∀ x, x ∈ C ↔ x ∈ D) ∧
      (∀ D ∈ out2, ∃ C ∈ [[(0 : Int), 1]], ∀ x, x ∈ D ↔ x ∈ C) := by
  have hk : ∀ x, x ∈ keys [((0 : Int), [(1 : Int)]), ((1 : Int), [(0 : Int)])] ↔
      x ∈ keys [((1 : Int), [(0 : Int)]), ((0 : Int), [(1 : Int)])] := by
    intro x
    simp only [keys, List.map_cons, List.map_nil, List.mem_cons,
      List.not_mem_nil, or_false]
    tauto
  have he : ∀ u v, Edge [((0 : Int), [(1 : Int)]), ((1 : Int), [(0 : Int)])] u v ↔
      Edge [((1 : Int), [(0 : Int)]), ((0 : Int), [(1 : Int)])] u v := by
    intro u v
    rw [Edge, Edge, getAdj_cons, getAdj_cons, getAdj_cons, getAdj_cons]
    by_cases hu0 : (0 : Int) = u
    · rw [if_pos hu0, if_neg (by omega), if_pos hu0]
    · rw [if_neg hu0, if_neg hu0]
  have ho1 : kosaraju [((0 : Int), [(1 : Int)]), ((1 : Int), [(0 : Int)])] =
      some [[(0 : Int), 1]] := by
    simp [kosaraju, dfs_fill, dfs_collect, popLoop, transpose, transposeAux,
      addRevEdges, dictAppend, keys, getAdj, pySorted]
  exact ⟨by decide, by decide,
    kosaraju_order_independent _ _ (by decide) (by decide) hk he _ ho1⟩

/-- C8: `kosaraju` on the empty dict returns the empty sequence. -/
theorem kosaraju_empty_graph : kosaraju ([] : Graph) = some [] := rfl

/-- C9: `kosaraju` raises (the `KeyError` during transpose construction,
modelled as `none`) if and only if some edge target of the input dict is not
a key; when every edge target is a key, it returns normally. -/
theorem kosaraju_error_iff_nonkey_target (g : Graph) (hg : (keys g).Nodup) :
    kosaraju g = none ↔ ∃ u v, Edge g u v ∧ v ∉ keys g :=
  kosaraju_eq_none_iff g hg

/-- Witness for C9 at the dict `{0: [1]}`. -/
theorem kosaraju_error_iff_nonkey_target_witness :
    (keys [((0 : Int), [(1 : Int)])]).Nodup ∧
    (kosaraju [((0 : Int), [(1 : Int)])] = none ↔
      ∃ u v, Edge [((0 : Int), [(1 : Int)])] u v ∧
        v ∉ keys [((0 : Int), [(1 : Int)])]) :=
  ⟨by decide, kosaraju_error_iff_nonkey_target [((0 : Int), [(1 : Int)])]
    (by decide)⟩

/-- C10: every component returned by `kosaraju` is non-empty. -/
theorem kosaraju_components_nonempty (g : Graph) (hg : (keys g).Nodup)
    (out : List (List Int)) (h : kosaraju g = some out) :
    ∀ C ∈ out, C ≠ [] := by
  obtain ⟨c1, _, _⟩ := kosaraju_master g hg out h
  intro C hC
  exact (c1 C hC).2.1

/-- Witness for C10 at the worked example graph. -/
theorem kosaraju_components_nonempty_witness :
    (keys exampleGraph).Nodup ∧
    ∀ C ∈ [[7], [0, 1, 2, 3, 4, 5, 6]], C ≠ ([] : List Int) :=
  ⟨by decide, kosaraju_components_nonempty exampleGraph (by decide) _
    kosaraju_exampleGraph_eval⟩
